import Mathlib

/-!
Shallow embedding of the Reconciliation & Safe-Patch Engine implemented in
`citation_workflow.py` (class `CitationWorkflow`), together with proofs of the
specification claims about it.

Conventions of the embedding:
* The persisted store (`citations.json`, namespace `papers`) is an association
  list from title to record, mirroring a Python `dict` (insertion order kept,
  re-assignment of an existing key keeps its position).
* Document text is a `List Char`; the regular expressions of the source, which
  are all anchored literal/digit patterns, are translated into explicit
  character scans with the same leftmost, non-overlapping semantics.
* The external lookup service is a stream of per-attempt outcomes
  (`Nat → ApiOutcome`); `time.sleep` calls are recorded as a list of delays.
* Timestamp parsing (`datetime.strptime`, an out-of-scope wall-clock utility)
  is a parameter `parse : String → Option Int` giving seconds; a `none` result
  models the `ValueError`/`TypeError` branch of the source.
-/

namespace CitationWF

/-- A record of `citations.json` under the `papers` namespace: the fields
written by `sync_papers` and `update_paper_citation`. `title` is the search
key sent to the service (normally equal to the store key, but an operator may
edit it); `last_updated` is a timestamp string in the fixed
`%Y-%m-%d-%H:%M:%S` format. -/
structure PaperRecord where
  title : String
  citations : Nat
  last_updated : String
  deriving DecidableEq

/-- The `papers` mapping of `citations.json`: a Python dict modelled as an
association list in insertion order. -/
abbrev Store := List (String × PaperRecord)

/-- Lookup of a key in the store (Python `d[k]` / `k in d`). -/
def storeFind? : Store → String → Option PaperRecord
  | [], _ => none
  | (k, v) :: rest, key => if k = key then some v else storeFind? rest key

/-- Assignment `d[k] = v` on a Python dict: an existing key keeps its
position and gets the new value, a new key is appended at the end. -/
def storeInsert : Store → String → PaperRecord → Store
  | [], key, v => [(key, v)]
  | (k, w) :: rest, key, v =>
    if k = key then (key, v) :: rest else (k, w) :: storeInsert rest key v

/-- The epoch sentinel written for newly discovered papers
(`'1970-01-01-00:00:00'` in `sync_papers`). -/
def epochTs : String := "1970-01-01-00:00:00"

/-- The record `sync_papers` stores for an extracted title: the old record
verbatim when the title is already a key, else a fresh record with zero
citations and the epoch sentinel timestamp. -/
def recordFor (old : Store) (t : String) : PaperRecord :=
  match storeFind? old t with
  | some r => r
  | none => PaperRecord.mk t 0 epochTs

/-- Step 1 of the workflow (`sync_papers`, the loop over `md_titles`): build
a new store containing exactly the extracted titles, copying existing
records and creating defaulted records for new titles. Titles absent from
the document are simply not carried over (reported, never written back to
the document). -/
def sync_papers (mdTitles : List String) (old : Store) : Store :=
  mdTitles.foldl (fun acc t => storeInsert acc t (recordFor old t)) []

/-! ### Store lemmas -/

theorem storeFind?_insert_self (s : Store) (k : String) (v : PaperRecord) :
    storeFind? (storeInsert s k v) k = some v := by
  induction s with
  | nil => simp [storeInsert, storeFind?]
  | cons hd tl ih =>
    obtain ⟨k', v'⟩ := hd
    by_cases h : k' = k
    · simp [storeInsert, h, storeFind?]
    · simp [storeInsert, h, storeFind?, ih]

theorem storeFind?_insert_ne (s : Store) (k k' : String) (v : PaperRecord)
    (h : k' ≠ k) : storeFind? (storeInsert s k v) k' = storeFind? s k' := by
  induction s with
  | nil => simp [storeInsert, storeFind?, Ne.symm h]
  | cons hd tl ih =>
    obtain ⟨k₀, v₀⟩ := hd
    by_cases h0 : k₀ = k
    · subst h0
      simp [storeInsert, storeFind?, Ne.symm h]
    · simp [storeInsert, h0, storeFind?, ih]

/-- Value of the generalized sync fold at any key. -/
theorem foldl_insert_find (f : String → PaperRecord) (titles : List String) :
    ∀ (acc : Store) (t : String),
      storeFind? (titles.foldl (fun a x => storeInsert a x (f x)) acc) t =
        if t ∈ titles then some (f t) else storeFind? acc t := by
  induction titles with
  | nil => intro acc t; simp
  | cons x xs ih =>
    intro acc t
    by_cases hx : t ∈ xs
    · simp [List.foldl_cons, ih, hx, List.mem_cons]
    · by_cases ht : t = x
      · subst ht
        simp [List.foldl_cons, ih, hx, storeFind?_insert_self]
      · simp [List.foldl_cons, ih, hx, ht, storeFind?_insert_ne _ _ _ _ ht]

theorem sync_papers_find (mdTitles : List String) (old : Store) (t : String) :
    storeFind? (sync_papers mdTitles old) t =
      if t ∈ mdTitles then some (recordFor old t) else none := by
  simpa [sync_papers, storeFind?] using foldl_insert_find (recordFor old) mdTitles [] t

/-- The sync fold is determined by the values chosen for the extracted
titles: two runs that agree on every extracted title build the same store. -/
theorem foldl_insert_congr (f g : String → PaperRecord) (titles : List String)
    (h : ∀ t ∈ titles, f t = g t) :
    ∀ acc : Store,
      titles.foldl (fun a x => storeInsert a x (f x)) acc =
        titles.foldl (fun a x => storeInsert a x (g x)) acc := by
  induction titles with
  | nil => intro acc; rfl
  | cons x xs ih =>
    intro acc
    rw [List.foldl_cons, List.foldl_cons, h x (List.mem_cons_self x xs)]
    exact ih (fun t ht => h t (List.mem_cons_of_mem x ht)) _

/-! ### Staleness Scheduler (`is_recently_updated`, sorting phase of `get_citations`) -/

/-- `is_recently_updated` of the source: parse `last_updated` with the fixed
`%Y-%m-%d-%H:%M:%S` format and report whether `now - last_updated` is
strictly below `skipHours` hours. The wall-clock parser is a collaborator
(out of scope per the spec) and is passed in as `parse`, returning seconds;
`parse s = none` models the `(ValueError, TypeError)` branch, which returns
`False` (the record "needs updating"). -/
def is_recently_updated (parse : String → Option Int) (now : Int)
    (skipHours : Int) (s : String) : Bool :=
  match parse s with
  | some t => decide (now - t < skipHours * 3600)
  | none => false

/-- Comparison used by the sorting phase of `get_citations`
(`sorted(paper_info, key=lambda x: x["last_updated"])`): order records by
their `last_updated` string. -/
def byStaleness (a b : String × PaperRecord) : Prop :=
  a.2.last_updated ≤ b.2.last_updated

instance : DecidableRel byStaleness := fun a b =>
  decidable_of_iff (a.2.last_updated.toList ≤ b.2.last_updated.toList)
    String.le_iff_toList_le.symm

instance : IsTotal (String × PaperRecord) byStaleness :=
  ⟨fun a b => le_total a.2.last_updated b.2.last_updated⟩

instance : IsTrans (String × PaperRecord) byStaleness :=
  ⟨fun _ _ _ hab hbc => le_trans hab hbc⟩

/-- The ordering computed once at the start of `get_citations`: a stable sort
of the whole store by `last_updated` ascending. Python's `sorted` is the
stable ascending sort, whose output insertion sort by `≤` reproduces
exactly (both are sorted, stable permutations, and such an output is
unique). This sorted store is immediately persisted (`save_citations`)
and then iterated for lookups. -/
def scheduleOrder (store : Store) : Store :=
  List.insertionSort byStaleness store

/-- The subsequence of the sorted store that is actually looked up: records
whose `last_updated` is not fresh (`is_recently_updated` is false) are
processed in sorted order, the fresh ones are skipped (`continue`). -/
def dueList (store : Store) (fresh : String → Bool) : Store :=
  (scheduleOrder store).filter (fun p => !(fresh p.2.last_updated))

/-! ### Scheduler lemmas -/

theorem filter_orderedInsert (p : String × PaperRecord → Bool)
    (hp : ∀ a b : String × PaperRecord, ¬ byStaleness a b → p a = true → p b = false)
    (a : String × PaperRecord) :
    ∀ l : List (String × PaperRecord),
      (List.orderedInsert byStaleness a l).filter p =
        if p a then a :: l.filter p else l.filter p := by
  intro l
  induction l with
  | nil =>
    by_cases ha : p a <;> simp [List.orderedInsert, List.filter, ha]
  | cons b l ih =>
    by_cases hab : byStaleness a b
    · by_cases ha : p a <;>
        simp [List.orderedInsert, if_pos hab, List.filter, ha]
    · by_cases ha : p a
      · have hb : p b = false := hp a b hab ha
        simp [List.orderedInsert, if_neg hab, List.filter, hb, ih, ha]
      · by_cases hb : p b <;>
          simp [List.orderedInsert, if_neg hab, List.filter, hb, ih, ha]

/-- Stability of the scheduling sort: the records carrying any fixed
`last_updated` value keep their original relative order. -/
theorem filter_scheduleOrder (store : Store) (c : String) :
    (scheduleOrder store).filter (fun p => p.2.last_updated = c) =
      store.filter (fun p => p.2.last_updated = c) := by
  induction store with
  | nil => rfl
  | cons a l ih =>
    have hp : ∀ x y : String × PaperRecord, ¬ byStaleness x y →
        decide (x.2.last_updated = c) = true → decide (y.2.last_updated = c) = false := by
      intro x y hxy hx
      have hx' : x.2.last_updated = c := of_decide_eq_true hx
      have hlt : y.2.last_updated < x.2.last_updated := lt_of_not_le hxy
      have : y.2.last_updated ≠ c := by
        intro hy
        rw [hx'] at hlt
        rw [hy] at hlt
        exact lt_irrefl _ hlt
      simpa using this
    by_cases ha : a.2.last_updated = c
    · simp only [scheduleOrder, List.insertionSort]
      rw [filter_orderedInsert _ hp a _]
      simp only [scheduleOrder] at ih
      simp [ha, ih, List.filter]
    · simp only [scheduleOrder, List.insertionSort]
      rw [filter_orderedInsert _ hp a _]
      simp only [scheduleOrder] at ih
      simp [ha, ih, List.filter]

/-! ### Lookup & Match Engine (`update_paper_citation`) -/

/-- A search-result entry returned by the lookup service. The source reads
the entry as a JSON object and requests the fields
`title,citationCount,url,authors`; each may be absent, so every field is an
`Option`. -/
structure Candidate where
  title? : Option String
  citationCount? : Option Nat
  url? : Option String
  authors? : Option (List String)
  deriving DecidableEq

/-- Outcome of one request to the search endpoint, as the source
distinguishes them: an HTTP 429 status, an `HTTPError` raised by
`raise_for_status` (whose text may or may not mention 429), a
`RequestException`, or a parsed response whose `data` list may be empty. -/
inductive ApiOutcome where
  | status429 : ApiOutcome
  | httpError : Bool → ApiOutcome
  | requestExc : ApiOutcome
  | ok : List Candidate → ApiOutcome

/-- Result of `update_paper_citation`: the `(True, new_citation)` /
`(False, reason)` pair of the source, with the source's literal reason
strings. -/
inductive LookupResult where
  | success : Nat → LookupResult
  | failure : String → LookupResult
  deriving DecidableEq

/-- Python `str.lower()` as used in the comparison
`paper['title'].lower() == search_title.lower()`: lower-case every
character. -/
def lowerStr (s : String) : String := String.mk (s.data.map Char.toLower)

/-- The candidate scan of `update_paper_citation`: skip entries missing
`title` or `citationCount`, and return the citation count of the first
remaining candidate whose title equals the search key case-insensitively. -/
def matchCandidates (searchTitle : String) : List Candidate → Option Nat
  | [] => none
  | c :: rest =>
    match c.title?, c.citationCount? with
    | some t, some n =>
      if lowerStr t = lowerStr searchTitle then some n
      else matchCandidates searchTitle rest
    | _, _ => matchCandidates searchTitle rest

/-- `self.api_delay`: the fixed one-second wait used between retries. -/
def apiDelay : Nat := 1

/-- The retry loop `for attempt in range(retry_limit)` of
`update_paper_citation`. `fuel` is the number of attempts still available
(so `fuel = 1` means this is the last attempt, i.e. the source's
`attempt == retry_limit - 1`); `attempt` indexes into the outcome stream.
The second component records the `time.sleep(self.api_delay)` calls made
before retrying. The `fuel = 0` branch is the fall-through return after the
loop, unreachable when the loop runs at least one attempt. -/
def attemptLoop (searchTitle : String) (resp : Nat → ApiOutcome) :
    Nat → Nat → LookupResult × List Nat
  | _, 0 => (LookupResult.failure "Exceeded maximum retry attempts", [])
  | attempt, fuel + 1 =>
    match resp attempt with
    | ApiOutcome.status429 =>
      if 0 < fuel then
        let r := attemptLoop searchTitle resp (attempt + 1) fuel
        (r.1, apiDelay :: r.2)
      else (LookupResult.failure "Maximum retry attempts reached", [])
    | ApiOutcome.httpError has429 =>
      if 0 < fuel then
        let r := attemptLoop searchTitle resp (attempt + 1) fuel
        (r.1, apiDelay :: r.2)
      else
        (LookupResult.failure
          (if has429 then "Maximum retry attempts reached" else "HTTP error"), [])
    | ApiOutcome.requestExc =>
      if 0 < fuel then
        let r := attemptLoop searchTitle resp (attempt + 1) fuel
        (r.1, apiDelay :: r.2)
      else (LookupResult.failure "Request exception", [])
    | ApiOutcome.ok cands =>
      if cands.isEmpty then
        if 0 < fuel then
          let r := attemptLoop searchTitle resp (attempt + 1) fuel
          (r.1, apiDelay :: r.2)
        else (LookupResult.failure "API returned empty results", [])
      else
        match matchCandidates searchTitle cands with
        | some n => (LookupResult.success n, [])
        | none => (LookupResult.failure "Title not exactly matched", [])

/-- `update_paper_citation` viewed as a function of the search key and the
service's per-attempt outcomes (default `retry_limit = 3` is passed
explicitly by callers of the model). -/
def update_paper_citation (searchTitle : String) (resp : Nat → ApiOutcome)
    (limit : Nat) : LookupResult × List Nat :=
  attemptLoop searchTitle resp 0 limit

/-- The store side of `update_paper_citation`: read the record at `key`
(`paper_data["papers"][title]`; a missing key would raise an uncaught
`KeyError`, modelled as `none`), search by its `title` field, and on success
write the new citation count and the fresh timestamp `now` back under `key`
before saving. On failure the store is untouched. -/
def lookupAndWrite (store : Store) (key : String) (resp : Nat → ApiOutcome)
    (limit : Nat) (now : String) : Option (Store × LookupResult) :=
  match storeFind? store key with
  | none => none
  | some pr =>
    match (update_paper_citation pr.title resp limit).1 with
    | LookupResult.success n =>
      some (storeInsert store key (PaperRecord.mk pr.title n now),
        LookupResult.success n)
    | LookupResult.failure r => some (store, LookupResult.failure r)

/-- The per-record loop of `get_citations` over the due titles: every due
title is processed in order; each failure is recorded in the per-record
result list (`skipped_papers`) and the loop continues. -/
def processDue (resps : String → Nat → ApiOutcome) (limit : Nat) (now : String) :
    Store → List String → Option (Store × List (String × LookupResult))
  | store, [] => some (store, [])
  | store, t :: ts =>
    match lookupAndWrite store t (resps t) limit now with
    | none => none
    | some (st, res) =>
      match processDue resps limit now st ts with
      | none => none
      | some (stFinal, rest) => some (stFinal, (t, res) :: rest)

/-! ### Document Patcher (`update_readme_citations`)

The badge regular expression of the source,
`\[!\[\]\(https://img\.shields\.io/badge/citation-\d+-blue\)\]\(\)`, is a
literal head, one or more digits, and a literal tail. Because the character
after the digit run must be `-`, the greedy `\d+` never backtracks
successfully, so a match is exactly: the head, the maximal digit run
(nonempty), the tail. All scans below implement the leftmost,
non-overlapping semantics of `re.finditer` / `re.search` / `re.sub`. -/

/-- Literal part of the badge pattern before the citation integer. -/
def badgeHead : List Char := "[![](https://img.shields.io/badge/citation-".toList

/-- Literal part of the badge pattern after the citation integer. -/
def badgeTail : List Char := "-blue)]()".toList

/-- If the badge pattern matches at the start of `s`, return the length of
the match. -/
def matchBadgeLen (s : List Char) : Option Nat :=
  if badgeHead.isPrefixOf s then
    let rest := s.drop badgeHead.length
    let ds := rest.takeWhile Char.isDigit
    if ds.isEmpty then none
    else if badgeTail.isPrefixOf (rest.drop ds.length) then
      some (badgeHead.length + ds.length + badgeTail.length)
    else none
  else none

/-- `re.sub(badge_pattern, '', text)`: delete every (leftmost,
non-overlapping) badge match. The fuel argument equals the length of the
remaining text; every step consumes at least one character, so the
`fuel = 0` branch is only reached on the empty remainder. -/
def stripBadgesF : Nat → List Char → List Char
  | 0, _ => []
  | _, [] => []
  | fuel + 1, c :: rest =>
    match matchBadgeLen (c :: rest) with
    | some n => stripBadgesF fuel ((c :: rest).drop n)
    | none => c :: stripBadgesF fuel rest

/-- Both sides of the integrity comparison of `update_readme_citations`:
the text with all citation badges removed. -/
def stripBadges (s : List Char) : List Char := stripBadgesF s.length s

/-- `re.finditer` for a literal pattern: start indices of the leftmost,
non-overlapping occurrences of `pat`, scanning from index `i`. -/
def occsF (pat : List Char) : Nat → List Char → Nat → List Nat
  | 0, _, _ => []
  | _ + 1, [], _ => []
  | fuel + 1, c :: rest, i =>
    if pat.isPrefixOf (c :: rest) then
      i :: occsF pat fuel ((c :: rest).drop pat.length) (i + pat.length)
    else occsF pat fuel rest (i + 1)

/-- Start indices of the occurrences of `pat` in `s`
(`[m.start() for m in re.finditer(...)]`). -/
def occs (pat : List Char) (s : List Char) : List Nat := occsF pat s.length s 0

/-- The anchor the patcher looks for:
`r'\*\*' + re.escape(paper_title) + r'\*\*'`, a literal. -/
def anchorOf (title : List Char) : List Char :=
  "**".toList ++ title ++ "**".toList

/-- `re.search(badge_pattern, suffix)`: split `suffix` as
`pre ++ badge ++ post` at the first badge match, returning
`(pre, badge length, post)`. -/
def findBadgeSplit : List Char → Option (List Char × Nat × List Char)
  | [] => none
  | c :: rest =>
    match matchBadgeLen (c :: rest) with
    | some n => some ([], n, (c :: rest).drop n)
    | none =>
      match findBadgeSplit rest with
      | some (pre, n, post) => some (c :: pre, n, post)
      | none => none

/-- The replacement badge
`f'[![](https://img.shields.io/badge/citation-{...}-blue)]()'` embedding a
citation count. -/
def badgeStr (count : Nat) : List Char :=
  badgeHead ++ Nat.toDigits 10 count ++ badgeTail

/-- One iteration of the patch loop of `update_readme_citations` for a
paper with the given title and stored citation count: require exactly one
anchor occurrence, then splice the replacement badge over the first badge
match at or after the anchor. Every refusal (`continue` after an error
count) leaves the text unchanged and reports `false`. -/
def patchOne (content : List Char) (title : List Char) (count : Nat) :
    List Char × Bool :=
  match occs (anchorOf title) content with
  | [m] =>
    match findBadgeSplit (content.drop m) with
    | some (pre, n, _) =>
      (content.take (m + pre.length) ++ badgeStr count ++
        content.drop (m + pre.length + n), true)
    | none => (content, false)
  | _ => (content, false)

/-- The text after the whole patch loop (`md_content` at the integrity
check), given the batch of successfully updated papers as
(title, stored citation count) pairs. -/
def updateReadmeContent (orig : List Char) (papers : List (List Char × Nat)) :
    List Char :=
  papers.foldl (fun md p => (patchOne md p.1 p.2).1) orig

/-- `update_readme_citations` as a write decision: `some c` means the file
is overwritten with `c`, `none` means nothing is written (the early return
for an empty batch, or the integrity-gate refusal), so the original bytes
persist on disk. -/
def update_readme_citations (orig : List Char) (papers : List (List Char × Nat)) :
    Option (List Char) :=
  if papers.isEmpty then none
  else if stripBadges orig = stripBadges (updateReadmeContent orig papers) then
    some (updateReadmeContent orig papers)
  else none

/-! ### Patcher lemmas -/

theorem occsF_mem (pat : List Char) :
    ∀ (fuel : Nat) (s : List Char) (i m : Nat),
      m ∈ occsF pat fuel s i → i ≤ m ∧ pat.isPrefixOf (s.drop (m - i)) = true := by
  intro fuel
  induction fuel with
  | zero => intro s i m h; simp [occsF] at h
  | succ f ih =>
    intro s i m h
    cases s with
    | nil => simp [occsF] at h
    | cons c rest =>
      by_cases hp : pat.isPrefixOf (c :: rest)
      · rw [occsF, if_pos hp] at h
        rcases List.mem_cons.mp h with h | h
        · subst h
          simpa using hp
        · obtain ⟨hle, hpre⟩ := ih _ _ _ h
          refine ⟨by omega, ?_⟩
          rw [List.drop_drop] at hpre
          have harith : pat.length + (m - (i + pat.length)) = m - i := by omega
          rwa [harith] at hpre
      · rw [occsF, if_neg hp] at h
        obtain ⟨hle, hpre⟩ := ih _ _ _ h
        refine ⟨by omega, ?_⟩
        have harith : m - i = (m - (i + 1)) + 1 := by omega
        rw [harith, List.drop_succ_cons]
        exact hpre

theorem occs_mem (pat s : List Char) (m : Nat) (h : m ∈ occs pat s) :
    pat.isPrefixOf (s.drop m) = true := by
  have := occsF_mem pat s.length s 0 m h
  simpa using this.2

theorem findBadgeSplit_spec :
    ∀ (s pre : List Char) (n : Nat) (post : List Char),
      findBadgeSplit s = some (pre, n, post) →
      matchBadgeLen (s.drop pre.length) = some n ∧
      (∀ q, q < pre.length → matchBadgeLen (s.drop q) = none) ∧
      post = s.drop (pre.length + n) := by
  intro s
  induction s with
  | nil => intro pre n post h; simp [findBadgeSplit] at h
  | cons c rest ih =>
    intro pre n post h
    rw [findBadgeSplit] at h
    cases hm : matchBadgeLen (c :: rest) with
    | some k =>
      rw [hm] at h
      simp only [Option.some.injEq, Prod.mk.injEq] at h
      rcases h with ⟨rfl, rfl, rfl⟩
      refine ⟨by simpa using hm, by intro q hq; simp at hq, by simp⟩
    | none =>
      rw [hm] at h
      cases hf : findBadgeSplit rest with
      | none => rw [hf] at h; simp at h
      | some trip =>
        obtain ⟨pre', n', post'⟩ := trip
        rw [hf] at h
        simp only [Option.some.injEq, Prod.mk.injEq] at h
        rcases h with ⟨rfl, rfl, rfl⟩
        obtain ⟨ih1, ih2, ih3⟩ := ih pre' n' post' hf
        refine ⟨?_, ?_, ?_⟩
        · have hl : (c :: pre').length = pre'.length + 1 := by simp
          rw [hl, List.drop_succ_cons]
          exact ih1
        · intro q hq
          cases q with
          | zero => simpa using hm
          | succ q' =>
            have hq' : q' < pre'.length := by
              simp only [List.length_cons] at hq
              omega
            rw [List.drop_succ_cons]
            exact ih2 q' hq'
        · have hl : (c :: pre').length + n' = (pre'.length + n') + 1 := by
            simp only [List.length_cons]
            omega
          rw [hl, List.drop_succ_cons]
          exact ih3

/-! ### Concrete documents used by the witnesses -/

/-- The end-to-end document of the specification, before patching. -/
def docA : List Char :=
  "**Paper A**[[paper]](u) [Badge] [![](https://img.shields.io/badge/citation-5-blue)]()".toList

/-- The same document after the citation indicator is rewritten to 12. -/
def docA12 : List Char :=
  "**Paper A**[[paper]](u) [Badge] [![](https://img.shields.io/badge/citation-12-blue)]()".toList

/-- C1. In the Document Patcher (`update_readme_citations`), after the badge
replacements for the batch of successfully updated records, the document is
written back only when stripping every citation badge from the original and
from the patched text leaves byte-identical remainders: any output
`some c` satisfies `stripBadges orig = stripBadges c` (so if the stripped
remainders differ, the result is `none` — the whole batch is discarded and
the original bytes persist), and whenever the batch is nonempty and the
stripped remainders agree, the patched text is written. -/
theorem update_readme_integrity_gate (orig : List Char)
    (papers : List (List Char × Nat)) :
    (∀ c, update_readme_citations orig papers = some c →
      stripBadges orig = stripBadges c) ∧
    (papers ≠ [] →
      stripBadges orig = stripBadges (updateReadmeContent orig papers) →
      update_readme_citations orig papers =
        some (updateReadmeContent orig papers)) := by
  constructor
  · intro c hc
    rw [update_readme_citations] at hc
    by_cases h1 : papers.isEmpty
    · rw [if_pos h1] at hc
      exact absurd hc (by simp)
    · rw [if_neg h1] at hc
      by_cases h2 : stripBadges orig = stripBadges (updateReadmeContent orig papers)
      · rw [if_pos h2] at hc
        injection hc with hc'
        rw [← hc']
        exact h2
      · rw [if_neg h2] at hc
        exact absurd hc (by simp)
  · intro hne hs
    rw [update_readme_citations]
    have h1 : ¬ (papers.isEmpty = true) := by
      cases papers with
      | nil => exact absurd rfl hne
      | cons p ps => simp [List.isEmpty]
    rw [if_neg h1, if_pos hs]

theorem update_readme_integrity_gate_witness :
    stripBadges docA = stripBadges docA12 ∧
    update_readme_citations docA [("Paper A".toList, 12)] = some docA12 := by
  constructor
  · exact (update_readme_integrity_gate docA [("Paper A".toList, 12)]).1 docA12
      (by decide)
  · have h := (update_readme_integrity_gate docA [("Paper A".toList, 12)]).2
      (by decide) (by decide)
    rw [h]
    decide

/-- C2. For a record in the successfully updated batch, the patcher counts
the occurrences of its title markup `**title**` in the document
(`re.finditer`): when the count is zero or more than one it refuses to
patch — the text is returned unchanged with the error flag. A replacement
happens only when exactly one occurrence exists, and then it splices a
badge embedding the record's new citation count over the first badge match
at or after that occurrence (no badge starts between the anchor and the
replaced one), leaving all other text untouched. -/
theorem patch_anchor_uniqueness (content title : List Char) (count : Nat) :
    ((occs (anchorOf title) content).length ≠ 1 →
      patchOne content title count = (content, false)) ∧
    (∀ res, patchOne content title count = (res, true) →
      ∃ m pre n post,
        occs (anchorOf title) content = [m] ∧
        (anchorOf title).isPrefixOf (content.drop m) = true ∧
        findBadgeSplit (content.drop m) = some (pre, n, post) ∧
        matchBadgeLen (content.drop (m + pre.length)) = some n ∧
        (∀ q, m ≤ q → q < m + pre.length →
          matchBadgeLen (content.drop q) = none) ∧
        res = content.take (m + pre.length) ++ badgeStr count ++
          content.drop (m + pre.length + n)) := by
  constructor
  · intro hlen
    cases ho : occs (anchorOf title) content with
    | nil => simp only [patchOne, ho]
    | cons m tail =>
      cases tail with
      | nil =>
        exact absurd (by rw [ho]; rfl) hlen
      | cons m' tail' => simp only [patchOne, ho]
  · intro res hres
    cases ho : occs (anchorOf title) content with
    | nil => simp only [patchOne, ho] at hres; simp at hres
    | cons m tail =>
      cases tail with
      | nil =>
        simp only [patchOne, ho] at hres
        cases hf : findBadgeSplit (content.drop m) with
        | none => rw [hf] at hres; simp at hres
        | some trip =>
          obtain ⟨pre, n, post⟩ := trip
          rw [hf] at hres
          simp only [Prod.mk.injEq] at hres
          obtain ⟨hres1, -⟩ := hres
          obtain ⟨hb1, hb2, -⟩ := findBadgeSplit_spec (content.drop m) pre n post hf
          refine ⟨m, pre, n, post, rfl, ?_, hf, ?_, ?_, hres1.symm⟩
          · exact occs_mem _ _ _ (by rw [ho]; exact List.mem_singleton.mpr rfl)
          · rw [List.drop_drop] at hb1
            exact hb1
          · intro q hq1 hq2
            have hnone := hb2 (q - m) (by omega)
            rw [List.drop_drop] at hnone
            have harith : m + (q - m) = q := by omega
            rwa [harith] at hnone
      | cons m' tail' =>
        simp only [patchOne, ho] at hres
        simp at hres

theorem patch_anchor_uniqueness_witness :
    patchOne docA ("Missing Title".toList) 3 = (docA, false) ∧
    (∃ m pre n post,
      occs (anchorOf ("Paper A".toList)) docA = [m] ∧
      (anchorOf ("Paper A".toList)).isPrefixOf (docA.drop m) = true ∧
      findBadgeSplit (docA.drop m) = some (pre, n, post) ∧
      matchBadgeLen (docA.drop (m + pre.length)) = some n ∧
      (∀ q, m ≤ q → q < m + pre.length →
        matchBadgeLen (docA.drop q) = none) ∧
      docA12 = docA.take (m + pre.length) ++ badgeStr 12 ++
        docA.drop (m + pre.length + n)) := by
  constructor
  · exact (patch_anchor_uniqueness docA ("Missing Title".toList) 3).1 (by decide)
  · exact (patch_anchor_uniqueness docA ("Paper A".toList) 12).2 docA12 (by decide)

/-! ### Match-engine lemmas -/

theorem matchCandidates_eq_some (st : String) :
    ∀ (cands : List Candidate) (n : Nat),
      matchCandidates st cands = some n →
      ∃ pre c rest2, cands = pre ++ c :: rest2 ∧
        (∃ t, c.title? = some t ∧ c.citationCount? = some n ∧
          lowerStr t = lowerStr st) ∧
        (∀ c' ∈ pre, ∀ t' k', c'.title? = some t' →
          c'.citationCount? = some k' → lowerStr t' ≠ lowerStr st) := by
  intro cands
  induction cands with
  | nil => intro n h; simp [matchCandidates] at h
  | cons c cs ih =>
    intro n h
    cases hct : c.title? with
    | none =>
      simp only [matchCandidates, hct] at h
      obtain ⟨pre, c0, rest2, hsplit, hc0, hpre⟩ := ih n h
      refine ⟨c :: pre, c0, rest2, by rw [hsplit]; rfl, hc0, ?_⟩
      intro c' hc' t' k' ht' hk'
      rcases List.mem_cons.mp hc' with rfl | hc'
      · rw [hct] at ht'
        exact Option.noConfusion ht'
      · exact hpre c' hc' t' k' ht' hk'
    | some t =>
      cases hcc : c.citationCount? with
      | none =>
        simp only [matchCandidates, hct, hcc] at h
        obtain ⟨pre, c0, rest2, hsplit, hc0, hpre⟩ := ih n h
        refine ⟨c :: pre, c0, rest2, by rw [hsplit]; rfl, hc0, ?_⟩
        intro c' hc' t' k' ht' hk'
        rcases List.mem_cons.mp hc' with rfl | hc'
        · rw [hcc] at hk'
          exact Option.noConfusion hk'
        · exact hpre c' hc' t' k' ht' hk'
      | some k =>
        simp only [matchCandidates, hct, hcc] at h
        by_cases heq : lowerStr t = lowerStr st
        · rw [if_pos heq] at h
          injection h with h'
          subst h'
          exact ⟨[], c, cs, rfl, ⟨t, hct, hcc, heq⟩, by intro c' hc'; simp at hc'⟩
        · rw [if_neg heq] at h
          obtain ⟨pre, c0, rest2, hsplit, hc0, hpre⟩ := ih n h
          refine ⟨c :: pre, c0, rest2, by rw [hsplit]; rfl, hc0, ?_⟩
          intro c' hc' t' k' ht' hk'
          rcases List.mem_cons.mp hc' with rfl | hc'
          · rw [hct] at ht'
            injection ht' with ht''
            rw [← ht'']
            exact heq
          · exact hpre c' hc' t' k' ht' hk'

/-- C3. When an attempt receives a nonempty candidate list, the engine
selects the first well-formed candidate whose title is case-insensitively
equal to the search key and succeeds with its citation count; when no
candidate matches, it fails at once with the source's reason
`Title not exactly matched` — the result does not depend on what the
service would have answered at later attempts, and no retry delay is
recorded. -/
theorem exact_match_policy (searchTitle : String) (cands : List Candidate)
    (resp : Nat → ApiOutcome) (limit : Nat)
    (h0 : resp 0 = ApiOutcome.ok cands) (hne : cands ≠ []) (hlim : 0 < limit) :
    (∀ n, matchCandidates searchTitle cands = some n →
      update_paper_citation searchTitle resp limit =
        (LookupResult.success n, [])) ∧
    (matchCandidates searchTitle cands = none →
      update_paper_citation searchTitle resp limit =
        (LookupResult.failure "Title not exactly matched", [])) ∧
    (∀ n, matchCandidates searchTitle cands = some n →
      ∃ pre c rest2, cands = pre ++ c :: rest2 ∧
        (∃ t, c.title? = some t ∧ c.citationCount? = some n ∧
          lowerStr t = lowerStr searchTitle) ∧
        (∀ c' ∈ pre, ∀ t' k', c'.title? = some t' →
          c'.citationCount? = some k' →
          lowerStr t' ≠ lowerStr searchTitle)) := by
  obtain ⟨f, rfl⟩ : ∃ f, limit = f + 1 := ⟨limit - 1, by omega⟩
  have hne' : cands.isEmpty = false := by
    cases cands with
    | nil => exact absurd rfl hne
    | cons c cs => rfl
  refine ⟨?_, ?_, ?_⟩
  · intro n hm
    simp [update_paper_citation, attemptLoop, h0, hne', hm]
  · intro hm
    simp [update_paper_citation, attemptLoop, h0, hne', hm]
  · intro n hm
    exact matchCandidates_eq_some searchTitle cands n hm

theorem exact_match_policy_witness :
    update_paper_citation "Attention Is All You Need"
        (fun _ => ApiOutcome.ok
          [Candidate.mk (some "ATTENTION IS ALL YOU NEED") (some 7) none none]) 3 =
      (LookupResult.success 7, []) ∧
    update_paper_citation "Attention Is All You Need"
        (fun _ => ApiOutcome.ok
          [Candidate.mk (some "Attention Is Not All You Need") (some 9) none none]) 3 =
      (LookupResult.failure "Title not exactly matched", []) := by
  constructor
  · exact (exact_match_policy "Attention Is All You Need"
      [Candidate.mk (some "ATTENTION IS ALL YOU NEED") (some 7) none none]
      (fun _ => ApiOutcome.ok
        [Candidate.mk (some "ATTENTION IS ALL YOU NEED") (some 7) none none])
      3 rfl (by decide) (by decide)).1 7 (by decide)
  · exact (exact_match_policy "Attention Is All You Need"
      [Candidate.mk (some "Attention Is Not All You Need") (some 9) none none]
      (fun _ => ApiOutcome.ok
        [Candidate.mk (some "Attention Is Not All You Need") (some 9) none none])
      3 rfl (by decide) (by decide)).2.1 (by decide)

/-- C10. A candidate missing the `title` field or the `citationCount` field
is skipped by the scan without error (removing it from the head of the
candidate list does not change the outcome), and the selected match — when
one exists — always carries both fields, so a field-less candidate can
never be selected even if its title would compare equal. -/
theorem malformed_candidates_skipped (searchTitle : String) (c : Candidate)
    (rest : List Candidate) :
    (c.title? = none ∨ c.citationCount? = none →
      matchCandidates searchTitle (c :: rest) =
        matchCandidates searchTitle rest) ∧
    (∀ n, matchCandidates searchTitle (c :: rest) = some n →
      ∃ c' ∈ c :: rest, ∃ t, c'.title? = some t ∧
        c'.citationCount? = some n ∧ lowerStr t = lowerStr searchTitle) := by
  constructor
  · rintro (h | h)
    · simp [matchCandidates, h]
    · cases hct : c.title? with
      | none => simp [matchCandidates, hct]
      | some t => simp [matchCandidates, hct, h]
  · intro n h
    obtain ⟨pre, c0, rest2, hsplit, ⟨t, ht, hk, hl⟩, -⟩ :=
      matchCandidates_eq_some searchTitle (c :: rest) n h
    refine ⟨c0, ?_, t, ht, hk, hl⟩
    rw [hsplit]
    exact List.mem_append_right pre (List.mem_cons_self c0 rest2)

theorem malformed_candidates_skipped_witness :
    matchCandidates "deep paper"
        [Candidate.mk (some "Deep Paper") none none none,
          Candidate.mk (some "DEEP PAPER") (some 3) none none] =
      matchCandidates "deep paper"
        [Candidate.mk (some "DEEP PAPER") (some 3) none none] ∧
    (∃ c' ∈ [Candidate.mk (some "Deep Paper") none none none,
        Candidate.mk (some "DEEP PAPER") (some 3) none none],
      ∃ t, c'.title? = some t ∧ c'.citationCount? = some 3 ∧
        lowerStr t = lowerStr "deep paper") := by
  constructor
  · exact (malformed_candidates_skipped "deep paper"
      (Candidate.mk (some "Deep Paper") none none none)
      [Candidate.mk (some "DEEP PAPER") (some 3) none none]).1 (Or.inr rfl)
  · exact (malformed_candidates_skipped "deep paper"
      (Candidate.mk (some "Deep Paper") none none none)
      [Candidate.mk (some "DEEP PAPER") (some 3) none none]).2 3 (by decide)

/-! ### Retry-loop lemmas -/

theorem attemptLoop_congr (st : String) (resp resp' : Nat → ApiOutcome) :
    ∀ (fuel attempt : Nat),
      (∀ i, attempt ≤ i → i < attempt + fuel → resp i = resp' i) →
      attemptLoop st resp attempt fuel = attemptLoop st resp' attempt fuel := by
  intro fuel
  induction fuel with
  | zero => intro attempt h; rfl
  | succ f ih =>
    intro attempt h
    have h0 : resp attempt = resp' attempt := h attempt (le_refl _) (by omega)
    have hrec : attemptLoop st resp (attempt + 1) f =
        attemptLoop st resp' (attempt + 1) f :=
      ih (attempt + 1) (fun i h1 h2 => h i (by omega) (by omega))
    simp only [attemptLoop, h0]
    cases resp' attempt with
    | status429 => simp [hrec]
    | httpError b => simp [hrec]
    | requestExc => simp [hrec]
    | ok cands => simp [hrec]

theorem lookupAndWrite_isSome (store : Store) (key : String)
    (resp : Nat → ApiOutcome) (limit : Nat) (now : String)
    (h : (storeFind? store key).isSome = true) :
    ∃ st res, lookupAndWrite store key resp limit now = some (st, res) ∧
      ∀ k, (storeFind? store k).isSome = true →
        (storeFind? st k).isSome = true := by
  cases hf : storeFind? store key with
  | none => rw [hf] at h; simp at h
  | some pr =>
    cases hres : (update_paper_citation pr.title resp limit).1 with
    | success n =>
      refine ⟨storeInsert store key (PaperRecord.mk pr.title n now),
        LookupResult.success n, ?_, ?_⟩
      · simp only [lookupAndWrite, hf, hres]
      · intro k hk
        by_cases hkk : k = key
        · subst hkk
          rw [storeFind?_insert_self]
          rfl
        · rw [storeFind?_insert_ne _ _ _ _ hkk]
          exact hk
    | failure r =>
      exact ⟨store, LookupResult.failure r,
        by simp only [lookupAndWrite, hf, hres], fun k hk => hk⟩

theorem processDue_total (resps : String → Nat → ApiOutcome) (limit : Nat)
    (now : String) :
    ∀ (titles : List String) (store : Store),
      (∀ t ∈ titles, (storeFind? store t).isSome = true) →
      ∃ st results,
        processDue resps limit now store titles = some (st, results) ∧
        results.length = titles.length := by
  intro titles
  induction titles with
  | nil => intro store h; exact ⟨store, [], rfl, rfl⟩
  | cons t ts ih =>
    intro store h
    obtain ⟨st1, res1, heq1, hpres⟩ :=
      lookupAndWrite_isSome store t (resps t) limit now
        (h t (List.mem_cons_self t ts))
    obtain ⟨st2, results2, heq2, hlen⟩ :=
      ih st1 (fun t' ht' => hpres t' (h t' (List.mem_cons_of_mem t ht')))
    refine ⟨st2, (t, res1) :: results2, ?_, by simp [hlen]⟩
    simp only [processDue, heq1, heq2]

/-- C8. The lookup of a due record is retried at most 3 times (the result
depends only on the first 3 service outcomes), with the fixed one-second
delay recorded before each retry; exhausting the retries on rate-limit
signals (an HTTP 429 status, or an `HTTPError` mentioning 429) fails with
the source's reason `Maximum retry attempts reached`, on empty result sets
with `API returned empty results`, and on other transport failures with
`HTTP error` / `Request exception`; and when every due title is a store
key, the per-record loop completes with one recorded result per due title
no matter what the service answers — no lookup failure aborts the run. -/
theorem retry_policy_spec (searchTitle : String) :
    (∀ resp, (∀ i, i < 3 → resp i = ApiOutcome.status429) →
      update_paper_citation searchTitle resp 3 =
        (LookupResult.failure "Maximum retry attempts reached",
          [apiDelay, apiDelay])) ∧
    (∀ resp, (∀ i, i < 3 → resp i = ApiOutcome.ok []) →
      update_paper_citation searchTitle resp 3 =
        (LookupResult.failure "API returned empty results",
          [apiDelay, apiDelay])) ∧
    (∀ resp, (∀ i, i < 3 → resp i = ApiOutcome.requestExc) →
      update_paper_citation searchTitle resp 3 =
        (LookupResult.failure "Request exception", [apiDelay, apiDelay])) ∧
    (∀ resp, (∀ i, i < 3 → resp i = ApiOutcome.httpError false) →
      update_paper_citation searchTitle resp 3 =
        (LookupResult.failure "HTTP error", [apiDelay, apiDelay])) ∧
    (∀ resp, (∀ i, i < 3 → resp i = ApiOutcome.httpError true) →
      update_paper_citation searchTitle resp 3 =
        (LookupResult.failure "Maximum retry attempts reached",
          [apiDelay, apiDelay])) ∧
    (∀ resp resp', (∀ i, i < 3 → resp i = resp' i) →
      update_paper_citation searchTitle resp 3 =
        update_paper_citation searchTitle resp' 3) ∧
    (∀ (resps : String → Nat → ApiOutcome) (limit : Nat) (now : String)
        (store : Store) (titles : List String),
      (∀ t ∈ titles, (storeFind? store t).isSome = true) →
      ∃ st results,
        processDue resps limit now store titles = some (st, results) ∧
        results.length = titles.length) := by
  refine ⟨?_, ?_, ?_, ?_, ?_, ?_, ?_⟩
  · intro resp h
    simp [update_paper_citation, attemptLoop,
      h 0 (by omega), h 1 (by omega), h 2 (by omega)]
  · intro resp h
    simp [update_paper_citation, attemptLoop,
      h 0 (by omega), h 1 (by omega), h 2 (by omega)]
  · intro resp h
    simp [update_paper_citation, attemptLoop,
      h 0 (by omega), h 1 (by omega), h 2 (by omega)]
  · intro resp h
    simp [update_paper_citation, attemptLoop,
      h 0 (by omega), h 1 (by omega), h 2 (by omega)]
  · intro resp h
    simp [update_paper_citation, attemptLoop,
      h 0 (by omega), h 1 (by omega), h 2 (by omega)]
  · intro resp resp' h
    exact attemptLoop_congr searchTitle resp resp' 3 0
      (fun i h1 h2 => h i (by omega))
  · intro resps limit now store titles h
    exact processDue_total resps limit now titles store h

theorem retry_policy_spec_witness :
    update_paper_citation "Some Paper" (fun _ => ApiOutcome.status429) 3 =
      (LookupResult.failure "Maximum retry attempts reached",
        [apiDelay, apiDelay]) ∧
    update_paper_citation "Some Paper" (fun _ => ApiOutcome.ok []) 3 =
      (LookupResult.failure "API returned empty results",
        [apiDelay, apiDelay]) ∧
    update_paper_citation "Some Paper" (fun _ => ApiOutcome.requestExc) 3 =
      (LookupResult.failure "Request exception", [apiDelay, apiDelay]) ∧
    update_paper_citation "Some Paper" (fun _ => ApiOutcome.httpError false) 3 =
      (LookupResult.failure "HTTP error", [apiDelay, apiDelay]) ∧
    update_paper_citation "Some Paper" (fun _ => ApiOutcome.httpError true) 3 =
      (LookupResult.failure "Maximum retry attempts reached",
        [apiDelay, apiDelay]) ∧
    (processDue (fun _ _ => ApiOutcome.status429) 3 "2024-01-02-03:04:05"
        [("A", PaperRecord.mk "A" 0 epochTs)] ["A"]).isSome = true := by
  refine ⟨?_, ?_, ?_, ?_, ?_, ?_⟩
  · exact (retry_policy_spec "Some Paper").1 _ (fun i _ => rfl)
  · exact (retry_policy_spec "Some Paper").2.1 _ (fun i _ => rfl)
  · exact (retry_policy_spec "Some Paper").2.2.1 _ (fun i _ => rfl)
  · exact (retry_policy_spec "Some Paper").2.2.2.1 _ (fun i _ => rfl)
  · exact (retry_policy_spec "Some Paper").2.2.2.2.1 _ (fun i _ => rfl)
  · obtain ⟨st, results, heq, -⟩ :=
      (retry_policy_spec "Some Paper").2.2.2.2.2.2
        (fun _ _ => ApiOutcome.status429) 3 "2024-01-02-03:04:05"
        [("A", PaperRecord.mk "A" 0 epochTs)] ["A"] (by decide)
    rw [heq]
    rfl

/-- C9. For a due record whose store key is present, the query sent to the
service is the record's stored `title` field (the search key, possibly
different from the key), while a successful result is written back under
the record's store key — the reconciliation key — as the new citation count
with the fresh timestamp; on failure the store is unchanged, and in either
case every other key's entry is untouched. -/
theorem search_key_write_key (store : Store) (key : String)
    (resp : Nat → ApiOutcome) (limit : Nat) (now : String) (pr : PaperRecord)
    (h : storeFind? store key = some pr) :
    (∀ st res, lookupAndWrite store key resp limit now = some (st, res) →
      res = (update_paper_citation pr.title resp limit).1 ∧
      (∀ n, res = LookupResult.success n →
        storeFind? st key = some (PaperRecord.mk pr.title n now)) ∧
      (∀ r, res = LookupResult.failure r → st = store) ∧
      (∀ k, k ≠ key → storeFind? st k = storeFind? store k)) ∧
    (lookupAndWrite store key resp limit now).isSome = true := by
  constructor
  · intro st res hsr
    cases hres : (update_paper_citation pr.title resp limit).1 with
    | success n =>
      simp only [lookupAndWrite, h, hres] at hsr
      simp only [Option.some.injEq, Prod.mk.injEq] at hsr
      obtain ⟨hst, hres'⟩ := hsr
      subst hst
      subst hres'
      refine ⟨rfl, ?_, ?_, ?_⟩
      · intro n' hn'
        injection hn' with hn''
        subst hn''
        exact storeFind?_insert_self store key _
      · intro r hr
        exact LookupResult.noConfusion hr
      · intro k hk
        exact storeFind?_insert_ne store key k _ hk
    | failure r =>
      simp only [lookupAndWrite, h, hres] at hsr
      simp only [Option.some.injEq, Prod.mk.injEq] at hsr
      obtain ⟨hst, hres'⟩ := hsr
      subst hst
      subst hres'
      exact ⟨rfl, by intro n hn; exact LookupResult.noConfusion hn,
        fun r' _ => rfl, fun k _ => rfl⟩
  · cases hres : (update_paper_citation pr.title resp limit).1 with
    | success n => simp only [lookupAndWrite, h, hres]; rfl
    | failure r => simp only [lookupAndWrite, h, hres]; rfl

theorem search_key_write_key_witness :
    storeFind?
        (storeInsert [("Key Title", PaperRecord.mk "Search Title" 1 epochTs)]
          "Key Title" (PaperRecord.mk "Search Title" 4 "2024-01-02-03:04:05"))
        "Key Title" =
      some (PaperRecord.mk "Search Title" 4 "2024-01-02-03:04:05") := by
  have h := (search_key_write_key
    [("Key Title", PaperRecord.mk "Search Title" 1 epochTs)] "Key Title"
    (fun _ => ApiOutcome.ok [Candidate.mk (some "SEARCH TITLE") (some 4) none none])
    3 "2024-01-02-03:04:05" (PaperRecord.mk "Search Title" 1 epochTs) rfl).1
    (storeInsert [("Key Title", PaperRecord.mk "Search Title" 1 epochTs)]
      "Key Title" (PaperRecord.mk "Search Title" 4 "2024-01-02-03:04:05"))
    (LookupResult.success 4) (by decide)
  exact h.2.1 4 rfl

/-! ### Store membership lemmas -/

theorem storeFind?_mem (s : Store) (k : String) (v : PaperRecord)
    (h : storeFind? s k = some v) : (k, v) ∈ s := by
  induction s with
  | nil => simp [storeFind?] at h
  | cons hd tl ih =>
    obtain ⟨k0, v0⟩ := hd
    simp only [storeFind?] at h
    by_cases hk : k0 = k
    · rw [if_pos hk] at h
      injection h with h'
      subst hk
      subst h'
      exact List.mem_cons_self _ _
    · rw [if_neg hk] at h
      exact List.mem_cons_of_mem _ (ih h)

theorem mem_storeInsert (s : Store) (k : String) (v : PaperRecord)
    (p : String × PaperRecord) (h : p ∈ storeInsert s k v) :
    p ∈ s ∨ p = (k, v) := by
  induction s with
  | nil =>
    simp only [storeInsert, List.mem_singleton] at h
    exact Or.inr h
  | cons hd tl ih =>
    obtain ⟨k0, v0⟩ := hd
    by_cases hk : k0 = k
    · simp only [storeInsert, if_pos hk] at h
      rcases List.mem_cons.mp h with rfl | h
      · exact Or.inr rfl
      · exact Or.inl (List.mem_cons_of_mem _ h)
    · simp only [storeInsert, if_neg hk] at h
      rcases List.mem_cons.mp h with rfl | h
      · exact Or.inl (List.mem_cons_self _ _)
      · rcases ih h with h | h
        · exact Or.inl (List.mem_cons_of_mem _ h)
        · exact Or.inr h

theorem mem_foldl_insert (f : String → PaperRecord) :
    ∀ (titles : List String) (acc : Store) (p : String × PaperRecord),
      p ∈ titles.foldl (fun a x => storeInsert a x (f x)) acc →
      p ∈ acc ∨ ∃ t ∈ titles, p = (t, f t) := by
  intro titles
  induction titles with
  | nil => intro acc p h; exact Or.inl h
  | cons x xs ih =>
    intro acc p h
    rw [List.foldl_cons] at h
    rcases ih _ p h with h | ⟨t, ht, rfl⟩
    · rcases mem_storeInsert _ _ _ _ h with h | rfl
      · exact Or.inl h
      · exact Or.inr ⟨x, List.mem_cons_self x xs, rfl⟩
    · exact Or.inr ⟨t, List.mem_cons_of_mem x ht, rfl⟩

/-- C4. After reconciliation the new store's key set is exactly the set of
extracted titles: a key resolves iff it was extracted; every extracted
title already present keeps its record verbatim (citations and
`last_updated` unchanged); every newly discovered title gets zero citations
and the epoch sentinel `1970-01-01-00:00:00`; and given old records whose
timestamps are at least the sentinel (all real `%Y-%m-%d-%H:%M:%S` stamps
are), the sentinel is a lower bound on every timestamp in the new store,
so the new entries sort first. -/
theorem sync_reconciliation_spec (mdTitles : List String) (old : Store) :
    (∀ t, (storeFind? (sync_papers mdTitles old) t).isSome = true ↔
      t ∈ mdTitles) ∧
    (∀ t r, t ∈ mdTitles → storeFind? old t = some r →
      storeFind? (sync_papers mdTitles old) t = some r) ∧
    (∀ t, t ∈ mdTitles → storeFind? old t = none →
      storeFind? (sync_papers mdTitles old) t =
        some (PaperRecord.mk t 0 epochTs)) ∧
    ((∀ p ∈ old, epochTs ≤ p.2.last_updated) →
      ∀ p ∈ sync_papers mdTitles old, epochTs ≤ p.2.last_updated) := by
  refine ⟨?_, ?_, ?_, ?_⟩
  · intro t
    rw [sync_papers_find]
    by_cases ht : t ∈ mdTitles <;> simp [ht]
  · intro t r ht hr
    rw [sync_papers_find, if_pos ht]
    simp only [recordFor, hr]
  · intro t ht hr
    rw [sync_papers_find, if_pos ht]
    simp only [recordFor, hr]
  · intro hold p hp
    rcases mem_foldl_insert (recordFor old) mdTitles [] p hp with h | ⟨t, ht, rfl⟩
    · simp at h
    · cases hf : storeFind? old t with
      | some r =>
        have hle := hold (t, r) (storeFind?_mem old t r hf)
        simpa only [recordFor, hf] using hle
      | none =>
        simp only [recordFor, hf]
        exact le_refl _

theorem sync_reconciliation_spec_witness :
    storeFind? (sync_papers ["Paper Alpha"] []) "Paper Alpha" =
      some (PaperRecord.mk "Paper Alpha" 0 epochTs) ∧
    storeFind?
        (sync_papers ["Paper Alpha"]
          [("Paper Alpha", PaperRecord.mk "Alt Key" 9 "2024-01-01-00:00:00")])
        "Paper Alpha" =
      some (PaperRecord.mk "Alt Key" 9 "2024-01-01-00:00:00") ∧
    epochTs ≤ (PaperRecord.mk "Alt Key" 9 "2024-01-01-00:00:00").last_updated := by
  refine ⟨?_, ?_, ?_⟩
  · exact (sync_reconciliation_spec ["Paper Alpha"] []).2.2.1 "Paper Alpha"
      (by decide) rfl
  · exact (sync_reconciliation_spec ["Paper Alpha"]
      [("Paper Alpha", PaperRecord.mk "Alt Key" 9 "2024-01-01-00:00:00")]).2.1
      "Paper Alpha" (PaperRecord.mk "Alt Key" 9 "2024-01-01-00:00:00")
      (by decide) rfl
  · exact (sync_reconciliation_spec ["Paper Alpha"]
      [("Paper Alpha", PaperRecord.mk "Alt Key" 9 "2024-01-01-00:00:00")]).2.2.2
      (by
        intro p hp
        rw [List.mem_singleton] at hp
        subst hp
        exact String.le_iff_toList_le.mpr (by decide))
      ("Paper Alpha", PaperRecord.mk "Alt Key" 9 "2024-01-01-00:00:00")
      (by decide)

/-- C5. Reconciliation is idempotent: syncing a second time against the
same extracted titles, with no intervening lookups, rebuilds exactly the
same store (hence a byte-identical persisted file). -/
theorem sync_idempotent (mdTitles : List String) (old : Store) :
    sync_papers mdTitles (sync_papers mdTitles old) =
      sync_papers mdTitles old := by
  have h : ∀ t ∈ mdTitles,
      recordFor (sync_papers mdTitles old) t = recordFor old t := by
    intro t ht
    have hfind := sync_papers_find mdTitles old t
    rw [if_pos ht] at hfind
    simp only [recordFor, hfind]
  show mdTitles.foldl
      (fun a x => storeInsert a x (recordFor (sync_papers mdTitles old) x)) [] =
    mdTitles.foldl (fun a x => storeInsert a x (recordFor old x)) []
  exact foldl_insert_congr _ _ mdTitles h []

/-- C6. The update pass orders the whole store by `last_updated` ascending
once at its start: the computed order is a permutation of the store, is
sorted, and is stable (records sharing a timestamp keep their original
relative order); that order is what gets persisted (`scheduleOrder` is the
saved store), and among the due records — the subsequence that is actually
looked up — a strictly older `last_updated` implies a strictly earlier
lookup position. -/
theorem staleness_order_spec (store : Store) (fresh : String → Bool) :
    List.Perm (scheduleOrder store) store ∧
    List.Sorted byStaleness (scheduleOrder store) ∧
    (∀ c : String,
      (scheduleOrder store).filter (fun p => p.2.last_updated = c) =
        store.filter (fun p => p.2.last_updated = c)) ∧
    (∀ (i j : Nat) (hi : i < (dueList store fresh).length)
        (hj : j < (dueList store fresh).length),
      ((dueList store fresh).get ⟨i, hi⟩).2.last_updated <
        ((dueList store fresh).get ⟨j, hj⟩).2.last_updated → i < j) := by
  refine ⟨List.perm_insertionSort byStaleness store,
    List.sorted_insertionSort byStaleness store,
    filter_scheduleOrder store, ?_⟩
  intro i j hi hj hlt
  have hpw : List.Pairwise byStaleness (dueList store fresh) :=
    List.Pairwise.filter _ (List.sorted_insertionSort byStaleness store)
  rw [List.pairwise_iff_get] at hpw
  by_contra hij
  rcases Nat.lt_or_ge j i with hji | hji
  · have hle : byStaleness ((dueList store fresh).get ⟨j, hj⟩)
        ((dueList store fresh).get ⟨i, hi⟩) :=
      hpw ⟨j, hj⟩ ⟨i, hi⟩ hji
    exact absurd hlt (not_lt_of_le hle)
  · have hij' : i = j := by omega
    subst hij'
    exact lt_irrefl _ hlt

theorem staleness_order_spec_witness :
    List.Perm
      (scheduleOrder
        [("B", PaperRecord.mk "B" 1 "2024-05-05-00:00:00"),
          ("A", PaperRecord.mk "A" 0 "2020-01-01-00:00:00")])
      [("B", PaperRecord.mk "B" 1 "2024-05-05-00:00:00"),
        ("A", PaperRecord.mk "A" 0 "2020-01-01-00:00:00")] ∧
    (0 : Nat) < 1 := by
  constructor
  · exact (staleness_order_spec
      [("B", PaperRecord.mk "B" 1 "2024-05-05-00:00:00"),
        ("A", PaperRecord.mk "A" 0 "2020-01-01-00:00:00")]
      (fun _ => false)).1
  · exact (staleness_order_spec
      [("B", PaperRecord.mk "B" 1 "2024-05-05-00:00:00"),
        ("A", PaperRecord.mk "A" 0 "2020-01-01-00:00:00")]
      (fun _ => false)).2.2.2 0 1 (by decide) (by decide)
      (String.lt_iff_toList_lt.mpr (by decide))

/-- C7. A record is fresh (skipped) iff its `last_updated` parses in the
fixed format and `now` minus the parsed time is strictly below the 24 hour
window; a malformed or unparsable timestamp makes the record due. The due
records of a pass are exactly the scheduled (sorted) records that are not
fresh. -/
theorem freshness_partition (parse : String → Option Int) (now : Int)
    (s : String) :
    (is_recently_updated parse now 24 s = true ↔
      ∃ t, parse s = some t ∧ now - t < 24 * 3600) ∧
    (parse s = none → is_recently_updated parse now 24 s = false) ∧
    (∀ (store : Store) (p : String × PaperRecord),
      p ∈ dueList store (is_recently_updated parse now 24) ↔
        p ∈ scheduleOrder store ∧
          is_recently_updated parse now 24 p.2.last_updated = false) := by
  refine ⟨?_, ?_, ?_⟩
  · cases hp : parse s with
    | none => simp [is_recently_updated, hp]
    | some t => simp [is_recently_updated, hp]
  · intro hp
    simp [is_recently_updated, hp]
  · intro store p
    simp [dueList, List.mem_filter]

theorem freshness_partition_witness :
    is_recently_updated (fun _ => none) 0 24 "not-a-timestamp" = false ∧
    is_recently_updated (fun _ => some 0) 3600 24 "2024-01-01-01:00:00" = true := by
  constructor
  · exact (freshness_partition (fun _ => none) 0 "not-a-timestamp").2.1 rfl
  · exact (freshness_partition (fun _ => some 0) 3600 "2024-01-01-01:00:00").1.mpr
      ⟨0, rfl, by norm_num⟩

end CitationWF
